import Mathlib

/-!
Shallow embedding of the Personal Task Reminder System core
(src/reminder_full.c): the task store, the deadline selector,
the scheduler's extract-due partition, and the countdown notifier.

Times (`time_t`) are modelled as `Int`; the task array plus
`task_count` is modelled as a `List Task`; the global state
(`tasks`, `task_count`, `next_id`) is a `Store`.
-/

namespace Reminder

/-- MAX_TASKS from the C source (line 21). -/
def MAX_TASKS : Nat := 256

/-- The task record `task_t` (lines 24-30 of reminder_full.c). -/
structure Task where
  id : Int
  title : String
  category : String
  priority : Int
  deadline : Int
deriving DecidableEq, Repr

/-- The shared store: the `tasks` array together with `task_count`,
and the id counter `next_id` (lines 38-40). -/
structure Store where
  tasks : List Task
  next_id : Int
deriving DecidableEq, Repr

/-- Core of `add_task` (lines 117-125): reject when the store is full,
otherwise append a task carrying the fresh id and bump `next_id`.
Returns the assigned id (`none` on capacity failure) and the new store. -/
def add_task (s : Store) (title : String) (category : String)
    (priority : Int) (deadline : Int) : Option Int × Store :=
  if MAX_TASKS ≤ s.tasks.length then (none, s)
  else
    (some s.next_id,
      { tasks := s.tasks ++
          [{ id := s.next_id, title := title, category := category,
             priority := priority, deadline := deadline }],
        next_id := s.next_id + 1 })

/-- Core loop of `delete_task` (lines 150-156): find the first task with
the given id, remove it and shift the following entries down. Returns
whether the id was found together with the compacted task list. -/
def delete_loop (id : Int) : List Task → Bool × List Task
  | [] => (false, [])
  | t :: ts =>
    if t.id = id then (true, ts)
    else
      let r := delete_loop id ts
      (r.1, t :: r.2)

/-- `delete_task` lifted to the store (lines 144-159): `next_id` untouched. -/
def delete_task (s : Store) (id : Int) : Bool × Store :=
  let r := delete_loop id s.tasks
  (r.1, { s with tasks := r.2 })

/-- The scan of `next_deadline` (lines 162-172): starting from `best = 0`,
break with `now` on the first task whose deadline is at or before `now`,
otherwise keep the smaller of `best` and the task's deadline (with the
`best == 0` initial-sentinel test of line 168). -/
def next_deadline_loop (now : Int) : List Task → Int → Int
  | [], best => best
  | t :: ts, best =>
    if t.deadline ≤ now then now
    else next_deadline_loop now ts
      (if best = 0 ∨ t.deadline < best then t.deadline else best)

/-- `next_deadline` (lines 162-172): the loop run with `best = 0`. -/
def next_deadline (now : Int) (ts : List Task) : Int :=
  next_deadline_loop now ts 0

/-- The extraction loop of `scheduler_thread_fn` (lines 233-241): one pass
that copies tasks with `deadline ≤ tnow` into the batch and compacts the
rest in place, both in their original order. Returns (batch, retained). -/
def extract_loop (tnow : Int) : List Task → List Task × List Task
  | [] => ([], [])
  | t :: ts =>
    let r := extract_loop tnow ts
    if t.deadline ≤ tnow then (t :: r.1, r.2) else (r.1, t :: r.2)

/-- `ExtractDue`: the extraction loop over the task list. -/
def extract_due (tnow : Int) (ts : List Task) : List Task × List Task :=
  extract_loop tnow ts

/-- The scheduler's extract step on the whole store (lines 226-242):
the batch is handed off, the retained tasks become the store,
`next_id` is untouched. -/
def scheduler_extract (tnow : Int) (s : Store) : List Task × Store :=
  let p := extract_due tnow s.tasks
  (p.1, { s with tasks := p.2 })

/-- The read loop of `load_tasks` (lines 65-78): starting from
`task_count = 0`, `next_id = 1`, consume parsed lines while the store has
room; a line that fails the `sscanf` pattern (`none`) is skipped, a parsed
task is appended and `next_id` is raised past its id (line 76). -/
def load_loop : List (Option Task) → List Task → Int → List Task × Int
  | [], acc, nid => (acc, nid)
  | line :: rest, acc, nid =>
    if acc.length < MAX_TASKS then
      match line with
      | some t => load_loop rest (acc ++ [t]) (if nid ≤ t.id then t.id + 1 else nid)
      | none => load_loop rest acc nid
    else (acc, nid)

/-- `load_tasks` (lines 60-81) on a list of parse results per line. -/
def load_tasks (lines : List (Option Task)) : Store :=
  let r := load_loop lines [] 1
  { tasks := r.1, next_id := r.2 }

/-- Countdown sleep intervals of `reminder_thread_fn` (line 189). -/
def intervals : List Nat := [30, 10, 15, 4, 1]

/-- The per-stage remaining-time announcements (line 190); 0 encodes the
final "deadline reached" message. -/
def announce_secs : List Nat := [30, 20, 5, 1, 0]

/-- The stage loop of `reminder_thread_fn` (lines 192-202): after sleeping
each interval, announce the stage's remaining time for every task in the
batch. An event `(e, t, a)` records an announcement at cumulative offset
`e` for task `t` with remaining time `a`. -/
def notify_loop : List (Nat × Nat) → Nat → List Task → List (Nat × Task × Nat)
  | [], _, _ => []
  | (iv, ann) :: rest, elapsed, batch =>
    batch.map (fun t => (elapsed + iv, t, ann)) ++
      notify_loop rest (elapsed + iv) batch

/-- `reminder_thread_fn` (lines 175-208): an empty batch is dropped at the
guard of line 177; otherwise the five countdown stages run. -/
def reminder_events (batch : List Task) : List (Nat × Task × Nat) :=
  if batch.length ≤ 0 then []
  else notify_loop (intervals.zip announce_secs) 0 batch

/-- One store operation of a process run: a menu-driven add or delete, or
a scheduler extraction. -/
inductive Op where
  | add (title category : String) (priority deadline : Int)
  | del (id : Int)
  | extract (tnow : Int)

/-- Run one operation; the `Option Int` is the id returned by a
successful add. -/
def run_op (s : Store) : Op → Store × Option Int
  | .add ti ca p d =>
    let r := add_task s ti ca p d
    (r.2, r.1)
  | .del i => ((delete_task s i).2, none)
  | .extract t => ((scheduler_extract t s).2, none)

/-- The final store after a sequence of operations. -/
def run_ops (s : Store) : List Op → Store
  | [] => s
  | op :: ops => run_ops (run_op s op).1 ops

/-- The ids handed out by the successful adds of an operation sequence,
in call order. -/
def returned_ids (s : Store) : List Op → List Int
  | [] => []
  | op :: ops =>
    let r := run_op s op
    match r.2 with
    | some i => i :: returned_ids r.1 ops
    | none => returned_ids r.1 ops

/-- A step taken after a batch handoff, as constrained in the claim: user
deletes, further scheduler extractions, the read-only `List` /
`NextDeadline` queries, and notifier steps (which never touch the store,
lines 175-208). -/
inductive PostOp where
  | del (id : Int)
  | extract (tnow : Int)
  | listOp
  | nextDl (now : Int)
  | notifyStep

/-- The task list after a sequence of post-handoff steps. -/
def post_run (ts : List Task) : List PostOp → List Task
  | [] => ts
  | .del i :: ops => post_run (delete_loop i ts).2 ops
  | .extract t :: ops => post_run (extract_due t ts).2 ops
  | .listOp :: ops => post_run ts ops
  | .nextDl _ :: ops => post_run ts ops
  | .notifyStep :: ops => post_run ts ops

/-! ### Basic lemmas about the extraction loop -/

lemma extract_loop_fst (tnow : Int) (ts : List Task) :
    (extract_loop tnow ts).1 = ts.filter (fun t => t.deadline ≤ tnow) := by
  induction ts with
  | nil => rfl
  | cons t ts ih =>
    by_cases h : t.deadline ≤ tnow <;>
      simp [extract_loop, List.filter_cons, h, ih]

lemma extract_loop_snd (tnow : Int) (ts : List Task) :
    (extract_loop tnow ts).2 = ts.filter (fun t => tnow < t.deadline) := by
  induction ts with
  | nil => rfl
  | cons t ts ih =>
    by_cases h : t.deadline ≤ tnow
    · simp [extract_loop, List.filter_cons, h, not_lt.mpr h, ih]
    · simp [extract_loop, List.filter_cons, h, not_le.mp h, ih]

lemma extract_loop_of_no_due (tnow : Int) (ts : List Task)
    (h : ∀ t ∈ ts, ¬ t.deadline ≤ tnow) : extract_loop tnow ts = ([], ts) := by
  induction ts with
  | nil => rfl
  | cons t ts ih =>
    have ht := h t (List.mem_cons_self t ts)
    have : extract_loop tnow ts = ([], ts) :=
      ih (fun u hu => h u (List.mem_cons_of_mem t hu))
    simp [extract_loop, ht, this]

lemma delete_loop_sublist (i : Int) (ts : List Task) :
    List.Sublist (delete_loop i ts).2 ts := by
  induction ts with
  | nil => simp [delete_loop]
  | cons t ts ih =>
    by_cases h : t.id = i
    · simp [delete_loop, h]
    · simpa [delete_loop, h] using List.Sublist.cons₂ t ih

lemma extract_snd_sublist (tnow : Int) (ts : List Task) :
    List.Sublist (extract_due tnow ts).2 ts := by
  rw [extract_due, extract_loop_snd]
  exact List.filter_sublist ts

lemma post_run_not_mem (t : Task) (ts : List Task) (ops : List PostOp)
    (h : t ∉ ts) : t ∉ post_run ts ops := by
  induction ops generalizing ts with
  | nil => exact h
  | cons op ops ih =>
    cases op with
    | del i =>
      exact ih _ (fun hm => h ((delete_loop_sublist i ts).subset hm))
    | extract tn =>
      exact ih _ (fun hm => h ((extract_snd_sublist tn ts).subset hm))
    | listOp => exact ih _ h
    | nextDl now => exact ih _ h
    | notifyStep => exact ih _ h

/-! ### Claim theorems -/

/-- Claim C1: `ExtractDue(now)` partitions the live tasks: no retained task has
`deadline ≤ now`, the batch is exactly the tasks that were due, and the
tasks with `deadline > now` are exactly the ones retained, in order. -/
theorem extract_due_partitions (tnow : Int) (ts : List Task) :
    (∀ t ∈ (extract_due tnow ts).2, ¬ t.deadline ≤ tnow) ∧
    (extract_due tnow ts).1 = ts.filter (fun t => t.deadline ≤ tnow) ∧
    (extract_due tnow ts).2 = ts.filter (fun t => tnow < t.deadline) := by
  refine ⟨?_, extract_loop_fst tnow ts, extract_loop_snd tnow ts⟩
  intro t ht
  rw [extract_due, extract_loop_snd] at ht
  exact not_le.mpr (of_decide_eq_true (List.mem_filter.mp ht).2)

/-- Claim C6: `ExtractDue` is idempotent per call instant: a second extraction
at the same `now`, with nothing added in between, yields an empty batch
and leaves the store unchanged. -/
theorem extract_due_idempotent (tnow : Int) (ts : List Task) :
    (extract_due tnow (extract_due tnow ts).2).1 = [] ∧
    (extract_due tnow (extract_due tnow ts).2).2 = (extract_due tnow ts).2 := by
  have h := (extract_due_partitions tnow ts).1
  have := extract_loop_of_no_due tnow (extract_due tnow ts).2 h
  rw [extract_due, this]
  exact ⟨rfl, rfl⟩

/-- Claim C9: `Delete` (shift compaction) and `ExtractDue` (stable in-place
partition) keep the surviving tasks in their original relative order:
the result is a sublist of the previous task list. -/
theorem surviving_tasks_order (ts : List Task) (i tnow : Int) :
    List.Sublist (delete_task ⟨ts, 1⟩ i).2.tasks ts ∧
    List.Sublist (scheduler_extract tnow ⟨ts, 1⟩).2.tasks ts :=
  ⟨delete_loop_sublist i ts, extract_snd_sublist tnow ts⟩

/-- Claim C2: a task extracted into a batch has already been removed from the
store when the batch is handed off, and no later delete, extraction,
read-only query or notifier step makes it visible again. -/
theorem extracted_never_visible (ts : List Task) (tnow : Int) (t : Task)
    (h : t ∈ (extract_due tnow ts).1) (steps : List PostOp) :
    t ∉ post_run (extract_due tnow ts).2 steps := by
  apply post_run_not_mem
  intro hm
  have hdue : t.deadline ≤ tnow := by
    rw [extract_due, extract_loop_fst] at h
    exact of_decide_eq_true (List.mem_filter.mp h).2
  exact (extract_due_partitions tnow ts).1 t hm hdue

/-- Witness for C2 at a concrete store, batch member and step sequence. -/
theorem extracted_never_visible_witness :
    (⟨1, "a", "w", 1, 5⟩ : Task) ∈
      (extract_due 10 [⟨1, "a", "w", 1, 5⟩, ⟨2, "b", "w", 2, 20⟩]).1 ∧
    (⟨1, "a", "w", 1, 5⟩ : Task) ∉
      post_run (extract_due 10 [⟨1, "a", "w", 1, 5⟩, ⟨2, "b", "w", 2, 20⟩]).2
        [PostOp.del 2, PostOp.extract 50, PostOp.listOp, PostOp.notifyStep] :=
  ⟨by decide,
    extracted_never_visible [⟨1, "a", "w", 1, 5⟩, ⟨2, "b", "w", 2, 20⟩] 10
      ⟨1, "a", "w", 1, 5⟩ (by decide)
      [PostOp.del 2, PostOp.extract 50, PostOp.listOp, PostOp.notifyStep]⟩

/-! ### The deadline selector -/

lemma next_deadline_loop_due (now : Int) (ts : List Task) (best : Int)
    (h : ∃ t ∈ ts, t.deadline ≤ now) : next_deadline_loop now ts best = now := by
  induction ts generalizing best with
  | nil => simp at h
  | cons t ts ih =>
    by_cases hd : t.deadline ≤ now
    · simp [next_deadline_loop, hd]
    · rcases h with ⟨u, hu, hud⟩
      rcases List.mem_cons.mp hu with rfl | hu
      · exact absurd hud hd
      · simp only [next_deadline_loop, if_neg hd]
        exact ih _ ⟨u, hu, hud⟩

lemma next_deadline_loop_no_due (now : Int) (ts : List Task) (best : Int)
    (h0 : 0 ≤ now) (hfut : ∀ t ∈ ts, now < t.deadline)
    (hb : best = 0 ∨ now < best) :
    (next_deadline_loop now ts best = best ∨
      ∃ t ∈ ts, next_deadline_loop now ts best = t.deadline) ∧
    (∀ t ∈ ts, next_deadline_loop now ts best ≤ t.deadline) ∧
    (best ≠ 0 → next_deadline_loop now ts best ≤ best) ∧
    ((best = 0 ∧ ts = []) ∨ now < next_deadline_loop now ts best) := by
  induction ts generalizing best with
  | nil =>
    refine ⟨Or.inl rfl, by simp, fun _ => le_refl _, ?_⟩
    rcases hb with h | h
    · exact Or.inl ⟨h, rfl⟩
    · exact Or.inr h
  | cons t ts ih =>
    have hd : now < t.deadline := hfut t (List.mem_cons_self t ts)
    have hnle : ¬ t.deadline ≤ now := not_le.mpr hd
    simp only [next_deadline_loop, if_neg hnle]
    set best' := if best = 0 ∨ t.deadline < best then t.deadline else best with hbd
    have hbcases : (best' = t.deadline ∧ (best = 0 ∨ t.deadline < best)) ∨
        (best' = best ∧ best ≠ 0 ∧ best ≤ t.deadline) := by
      rw [hbd]; split
      · rename_i hcond; exact Or.inl ⟨rfl, hcond⟩
      · rename_i hcond
        push_neg at hcond
        exact Or.inr ⟨rfl, hcond.1, hcond.2⟩
    have hb' : now < best' := by
      rcases hbcases with ⟨he, _⟩ | ⟨he, hne, _⟩
      · rw [he]; exact hd
      · rw [he]
        rcases hb with h | h
        · exact absurd h hne
        · exact h
    have hb'0 : best' ≠ 0 := by
      intro h; rw [h] at hb'; exact absurd (lt_of_le_of_lt h0 hb') (lt_irrefl 0)
    obtain ⟨hA, hB, hD, hC⟩ :=
      ih best' (fun u hu => hfut u (List.mem_cons_of_mem t hu)) (Or.inr hb')
    have hle_best' : next_deadline_loop now ts best' ≤ best' := hD hb'0
    refine ⟨?_, ?_, ?_, ?_⟩
    · rcases hA with h | ⟨u, hu, hud⟩
      · rcases hbcases with ⟨he, _⟩ | ⟨he, _, _⟩
        · exact Or.inr ⟨t, List.mem_cons_self t ts, by rw [h, he]⟩
        · exact Or.inl (by rw [h, he])
      · exact Or.inr ⟨u, List.mem_cons_of_mem t hu, hud⟩
    · intro u hu
      rcases List.mem_cons.mp hu with rfl | hu
      · refine le_trans hle_best' ?_
        rcases hbcases with ⟨he, _⟩ | ⟨he, _, hle⟩
        · rw [he]
        · rw [he]; exact hle
      · exact hB u hu
    · intro hbne
      refine le_trans hle_best' ?_
      rcases hbcases with ⟨he, hc⟩ | ⟨he, _, _⟩
      · rcases hc with h | h
        · exact absurd h hbne
        · rw [he]; exact le_of_lt h
      · rw [he]
    · rcases hC with ⟨h, _⟩ | h
      · exact absurd h hb'0
      · exact Or.inr h

/-- Claim C4: `NextDeadline` returns the empty sentinel (0) on an empty
store; returns `now` as soon as some live task is already due
(short-circuiting, not the minimum among due tasks); and when every task
is strictly in the future (with a nonnegative clock, as `time(NULL)`
yields) it returns the minimum deadline: some task's deadline that is a
lower bound for all of them. -/
theorem next_deadline_spec (now : Int) (ts : List Task) :
    (ts = [] → next_deadline now ts = 0) ∧
    ((∃ t ∈ ts, t.deadline ≤ now) → next_deadline now ts = now) ∧
    (0 ≤ now → (∀ t ∈ ts, now < t.deadline) → ts ≠ [] →
      (∃ t ∈ ts, next_deadline now ts = t.deadline) ∧
      ∀ t ∈ ts, next_deadline now ts ≤ t.deadline) := by
  refine ⟨fun h => by rw [h]; rfl,
    fun h => next_deadline_loop_due now ts 0 h,
    fun h0 hfut hne => ?_⟩
  obtain ⟨hA, hB, _, hC⟩ :=
    next_deadline_loop_no_due now ts 0 h0 hfut (Or.inl rfl)
  have hpos : now < next_deadline_loop now ts 0 := by
    rcases hC with ⟨_, h⟩ | h
    · exact absurd h hne
    · exact h
  refine ⟨?_, hB⟩
  rcases hA with h | h
  · rw [h] at hpos
    exact absurd hpos (not_lt.mpr h0)
  · exact h

/-- Witness for C4: the empty store, one already-due task, and two
future tasks at deadlines 12 < 15. -/
theorem next_deadline_spec_witness :
    next_deadline 10 [] = 0 ∧
    next_deadline 10 [⟨1, "a", "w", 1, 9⟩] = 10 ∧
    ((∃ t ∈ ([⟨1, "a", "w", 1, 12⟩, ⟨2, "b", "w", 1, 15⟩] : List Task),
        next_deadline 10 [⟨1, "a", "w", 1, 12⟩, ⟨2, "b", "w", 1, 15⟩] = t.deadline) ∧
      ∀ t ∈ ([⟨1, "a", "w", 1, 12⟩, ⟨2, "b", "w", 1, 15⟩] : List Task),
        next_deadline 10 [⟨1, "a", "w", 1, 12⟩, ⟨2, "b", "w", 1, 15⟩] ≤ t.deadline) :=
  ⟨(next_deadline_spec 10 []).1 rfl,
   (next_deadline_spec 10 [⟨1, "a", "w", 1, 9⟩]).2.1
     ⟨⟨1, "a", "w", 1, 9⟩, by decide, by decide⟩,
   (next_deadline_spec 10 [⟨1, "a", "w", 1, 12⟩, ⟨2, "b", "w", 1, 15⟩]).2.2
     (by decide) (by decide) (by decide)⟩

/-- Claim C10: for any clock value `now > 0`, `next_deadline` returns the
scheduler's empty-store sentinel 0 exactly when the store is empty: a
task that is already due (deadline 0 included) yields `now ≠ 0`, and
all-future tasks yield their minimum deadline, which exceeds `now`. -/
theorem next_deadline_zero_iff_empty (now : Int) (ts : List Task)
    (h : 0 < now) : next_deadline now ts = 0 ↔ ts = [] := by
  constructor
  · intro hz
    rw [next_deadline] at hz
    by_contra hne
    by_cases hdue : ∃ t ∈ ts, t.deadline ≤ now
    · rw [next_deadline_loop_due now ts 0 hdue] at hz
      exact absurd hz (ne_of_gt h)
    · push_neg at hdue
      have hfut : ∀ t ∈ ts, now < t.deadline := hdue
      obtain ⟨_, _, _, hC⟩ :=
        next_deadline_loop_no_due now ts 0 (le_of_lt h) hfut (Or.inl rfl)
      rcases hC with ⟨_, he⟩ | hgt
      · exact hne he
      · rw [hz] at hgt
        exact absurd (lt_trans h hgt) (lt_irrefl 0)
  · intro hz
    rw [hz]; rfl

/-- Witness for C10: at `now = 5`, a single task with deadline 0 (already
due) does not make `next_deadline` return the sentinel. -/
theorem next_deadline_zero_iff_empty_witness :
    (next_deadline 5 [⟨1, "a", "w", 1, 0⟩] = 0 ↔
      ([⟨1, "a", "w", 1, 0⟩] : List Task) = []) ∧
    (next_deadline 5 [] = 0 ↔ ([] : List Task) = []) :=
  ⟨next_deadline_zero_iff_empty 5 [⟨1, "a", "w", 1, 0⟩] (by decide),
   next_deadline_zero_iff_empty 5 [] (by decide)⟩

/-! ### The countdown notifier -/

/-- Claim C3: for a non-empty batch the notifier's sleep intervals
[30, 10, 15, 4, 1] total exactly 60, the announcement trace is exactly
one announcement per task per stage at cumulative offsets
30, 40, 55, 59, 60 with remaining times 30, 20, 5, 1 and 0 (the final
"deadline reached" message), and each of the five stage announcements is
made for every task in the batch. -/
theorem countdown_stages (batch : List Task) (hne : batch ≠ []) :
    intervals.sum = 60 ∧
    reminder_events batch =
      (([(30, 30), (40, 20), (55, 5), (59, 1), (60, 0)] : List (Nat × Nat)).flatMap
        fun p => batch.map fun t => (p.1, t, p.2)) ∧
    ∀ t ∈ batch,
      ∀ p ∈ ([(30, 30), (40, 20), (55, 5), (59, 1), (60, 0)] : List (Nat × Nat)),
        (p.1, t, p.2) ∈ reminder_events batch := by
  have hlen : ¬ batch.length ≤ 0 := by
    simp only [Nat.le_zero, List.length_eq_zero]
    exact hne
  have hev : reminder_events batch =
      (([(30, 30), (40, 20), (55, 5), (59, 1), (60, 0)] : List (Nat × Nat)).flatMap
        fun p => batch.map fun t => (p.1, t, p.2)) := by
    rw [reminder_events, if_neg hlen]
    simp [intervals, announce_secs, List.zip, notify_loop, List.flatMap]
  refine ⟨rfl, hev, fun t ht p hp => ?_⟩
  rw [hev]
  simp only [List.mem_flatMap, List.mem_map]
  exact ⟨p, hp, t, ht, rfl⟩

/-- Witness for C3 on a concrete one-task batch. -/
theorem countdown_stages_witness :
    intervals.sum = 60 ∧
    reminder_events [⟨1, "a", "w", 1, 5⟩] =
      (([(30, 30), (40, 20), (55, 5), (59, 1), (60, 0)] : List (Nat × Nat)).flatMap
        fun p => ([⟨1, "a", "w", 1, 5⟩] : List Task).map fun t => (p.1, t, p.2)) ∧
    ∀ t ∈ ([⟨1, "a", "w", 1, 5⟩] : List Task),
      ∀ p ∈ ([(30, 30), (40, 20), (55, 5), (59, 1), (60, 0)] : List (Nat × Nat)),
        (p.1, t, p.2) ∈ reminder_events [⟨1, "a", "w", 1, 5⟩] :=
  countdown_stages [⟨1, "a", "w", 1, 5⟩] (by decide)

/-! ### Id assignment across operation sequences -/

lemma run_op_next_id_le (s : Store) (op : Op) :
    s.next_id ≤ (run_op s op).1.next_id := by
  cases op with
  | add ti ca p d =>
    simp only [run_op, add_task]
    split
    · exact le_refl _
    · simp
  | del i => exact le_refl _
  | extract t => exact le_refl _

lemma run_op_some (s : Store) (op : Op) (i : Int)
    (h : (run_op s op).2 = some i) :
    i = s.next_id ∧ (run_op s op).1.next_id = s.next_id + 1 := by
  cases op with
  | add ti ca p d =>
    simp only [run_op, add_task] at h ⊢
    split at h
    · simp at h
    · simp at h
      split
      · rename_i hc
        simp_all
      · exact ⟨h.symm, rfl⟩
  | del i => simp [run_op] at h
  | extract t => simp [run_op] at h

lemma returned_ids_lb (s : Store) (ops : List Op) :
    ∀ i ∈ returned_ids s ops, s.next_id ≤ i := by
  induction ops generalizing s with
  | nil => simp [returned_ids]
  | cons op ops ih =>
    intro i hi
    rw [returned_ids] at hi
    rcases h2 : (run_op s op).2 with _ | j
    · rw [h2] at hi
      exact le_trans (run_op_next_id_le s op) (ih _ i hi)
    · rw [h2] at hi
      rcases List.mem_cons.mp hi with rfl | hi
      · exact le_of_eq (run_op_some s op i h2).1.symm
      · exact le_trans (run_op_next_id_le s op) (ih _ i hi)

/-- Claim C5: over any sequence of operations, the ids handed out by the
successful `Add` calls are strictly increasing in call order (hence
pairwise distinct), and every id handed out is at least the current
`next_id`, so `Delete` and `ExtractDue` (which leave `next_id` alone)
never make an old id available again. -/
theorem add_ids_strictly_increasing (s : Store) (ops : List Op) :
    List.Pairwise (· < ·) (returned_ids s ops) ∧
    ∀ i ∈ returned_ids s ops, s.next_id ≤ i := by
  refine ⟨?_, returned_ids_lb s ops⟩
  induction ops generalizing s with
  | nil => simp [returned_ids]
  | cons op ops ih =>
    rw [returned_ids]
    rcases h2 : (run_op s op).2 with _ | j
    · exact ih _
    · obtain ⟨rfl, hnext⟩ := run_op_some s op j h2
      refine List.Pairwise.cons (fun x hx => ?_) (ih _)
      have := returned_ids_lb (run_op s op).1 ops x hx
      rw [hnext] at this
      exact lt_of_lt_of_le (lt_add_one _) this

/-! ### Capacity -/

/-- Claim C7: at the configured maximum of 256 tasks, `Add` fails and
leaves the store untouched (same tasks, same `next_id`); below capacity
it appends exactly one task carrying the fresh id and bumps `next_id`. -/
theorem add_task_capacity (s : Store) (ti ca : String) (p d : Int) :
    (s.tasks.length = MAX_TASKS → add_task s ti ca p d = (none, s)) ∧
    (s.tasks.length < MAX_TASKS →
      add_task s ti ca p d =
        (some s.next_id,
          { tasks := s.tasks ++
              [{ id := s.next_id, title := ti, category := ca,
                 priority := p, deadline := d }],
            next_id := s.next_id + 1 })) := by
  constructor
  · intro h
    rw [add_task, if_pos (le_of_eq h.symm)]
  · intro h
    rw [add_task, if_neg (not_le.mpr h)]

/-- Witness for C7: a full store of 256 tasks rejects the add unchanged;
the empty store appends the task under the fresh id 7. -/
theorem add_task_capacity_witness :
    add_task ⟨List.replicate MAX_TASKS ⟨1, "a", "w", 1, 5⟩, 7⟩ "b" "x" 2 9 =
      (none, ⟨List.replicate MAX_TASKS ⟨1, "a", "w", 1, 5⟩, 7⟩) ∧
    add_task ⟨[], 7⟩ "b" "x" 2 9 =
      (some 7,
        { tasks := [] ++
            [{ id := 7, title := "b", category := "x",
               priority := 2, deadline := 9 }],
          next_id := 7 + 1 }) :=
  ⟨(add_task_capacity ⟨List.replicate MAX_TASKS ⟨1, "a", "w", 1, 5⟩, 7⟩
      "b" "x" 2 9).1 (by simp),
   (add_task_capacity ⟨[], 7⟩ "b" "x" 2 9).2 (by simp [MAX_TASKS])⟩

/-! ### Task-count bounds -/

lemma load_loop_cons (line : Option Task) (rest : List (Option Task))
    (acc : List Task) (nid : Int) :
    load_loop (line :: rest) acc nid =
      if acc.length < MAX_TASKS then
        match line with
        | some t => load_loop rest (acc ++ [t]) (if nid ≤ t.id then t.id + 1 else nid)
        | none => load_loop rest acc nid
      else (acc, nid) := rfl

lemma load_loop_length (lines : List (Option Task)) (acc : List Task)
    (nid : Int) (h : acc.length ≤ MAX_TASKS) :
    (load_loop lines acc nid).1.length ≤ MAX_TASKS := by
  induction lines generalizing acc nid with
  | nil => exact h
  | cons line rest ih =>
    rw [load_loop_cons]
    by_cases hlt : acc.length < MAX_TASKS
    · rw [if_pos hlt]
      cases line with
      | some t =>
        refine ih _ _ ?_
        rw [List.length_append, List.length_singleton]
        omega
      | none => exact ih _ _ h
    · rw [if_neg hlt]
      exact h

/-- Claim C8: every operation keeps the live task count within the fixed
capacity: `Add`, `Delete` and the scheduler's extraction preserve
`task_count ≤ MAX_TASKS`, and `load_tasks` produces at most `MAX_TASKS`
tasks; the count is a `Nat` (the list length), so it is never negative. -/
theorem task_count_bounded (s : Store) (ti ca : String) (p d i tnow : Int)
    (lines : List (Option Task)) :
    (s.tasks.length ≤ MAX_TASKS →
      (add_task s ti ca p d).2.tasks.length ≤ MAX_TASKS) ∧
    (s.tasks.length ≤ MAX_TASKS →
      (delete_task s i).2.tasks.length ≤ MAX_TASKS) ∧
    (s.tasks.length ≤ MAX_TASKS →
      (scheduler_extract tnow s).2.tasks.length ≤ MAX_TASKS) ∧
    (load_tasks lines).tasks.length ≤ MAX_TASKS := by
  refine ⟨?_, ?_, ?_, load_loop_length lines [] 1 (by simp)⟩
  · intro h
    rw [add_task]
    split
    · exact h
    · rename_i hfull
      push_neg at hfull
      simpa using hfull
  · intro h
    exact le_trans (List.Sublist.length_le (delete_loop_sublist i s.tasks)) h
  · intro h
    exact le_trans (List.Sublist.length_le (extract_snd_sublist tnow s.tasks)) h

/-- Witness for C8 on a concrete store and line list. -/
theorem task_count_bounded_witness :
    (add_task ⟨[], 1⟩ "a" "w" 1 5).2.tasks.length ≤ MAX_TASKS ∧
    (delete_task ⟨[], 1⟩ 1).2.tasks.length ≤ MAX_TASKS ∧
    (scheduler_extract 0 ⟨[], 1⟩).2.tasks.length ≤ MAX_TASKS ∧
    (load_tasks [some ⟨1, "a", "w", 1, 5⟩, none]).tasks.length ≤ MAX_TASKS :=
  have h := task_count_bounded ⟨[], 1⟩ "a" "w" 1 5 1 0
    [some ⟨1, "a", "w", 1, 5⟩, none]
  ⟨h.1 (by decide), h.2.1 (by decide), h.2.2.1 (by decide), h.2.2.2⟩

end Reminder
